import Mathlib

/-!
Verification of the twunproxy Redis proxy client.

The development shallowly embeds the repository's Go sources:

* `RedisCmd.getArgs`, `RedisReturn` — twunproxy.go lines 28-46;
* the fast path of `ProxyConn.do` — twunproxy.go lines 124-130;
* the discovery round of `ProxyConn.do` / `ProxyConn.doInstance`
  (goroutines, unbuffered channels `results`/`stop`/`cmdDone`, the wait
  group) — twunproxy.go lines 132-213, modelled as a small-step
  transition system over explicit thread program counters, with the
  scheduler supplied as a list of labels;
* `ProxyConn.BLPop` of commands.go and the older `ProxyConn.BLPop` of
  twunproxy.go (they are two revisions of the same method);
* `ProxyConn.BGSave` and `NewProxyConn`.

Go `interface{}` reply values are embedded as the inductive `RVal`;
a Go `panic` (failed type assertion, index out of range) is `none` of an
`Option` result; machine floats (`timeout.Seconds()`) never influence
control flow and are kept opaque as the raw nanosecond count.
-/

/-- Go `interface{}` values that flow through the proxy: nil, booleans,
strings, byte slices, the float64 produced by `time.Duration.Seconds()`
(kept opaque as the nanosecond count), and `[]interface{}` slices. -/
inductive RVal where
  | nil : RVal
  | boolV : Bool → RVal
  | str : String → RVal
  | bytes : String → RVal
  | durSec : Int → RVal
  | arr : List RVal → RVal

/-- RedisReturn (twunproxy.go lines 29-32): a command's value/error pair.
Go `error` is `Option String` (the message of `errors.New`). -/
structure RedisReturn where
  val : RVal
  err : Option String

/-- RedisCmd (twunproxy.go lines 36-40). -/
structure RedisCmd where
  name : String
  key : String
  args : List RVal

/-- getArgs (twunproxy.go lines 44-46):
`append([]interface{}{c.key}, c.args...)` builds a fresh slice whose head
is the key and whose tail is the caller's argument list. -/
def RedisCmd.getArgs (c : RedisCmd) : List RVal :=
  RVal.str c.key :: c.args

/-- Whether a value is a `[]interface{}` slice (Go two-result type
assertion `v.([]interface{})` succeeding). -/
def RVal.isArr : RVal → Bool
  | .arr _ => true
  | _ => false

/-- Whether a value is the nil interface. -/
def RVal.isNil : RVal → Bool
  | .nil => true
  | _ => false

/-! ## The discovery round (twunproxy.go lines 132-213)

One `do` call on an unmapped key runs, concurrently:

* per pool `i`, the outer body of `doInstance` (acquires a connection,
  spawns the inner goroutine, then blocks in
  `select { case <-stop; case <-cmdDone }`);
* per pool `i`, the inner goroutine of `doInstance` (runs `conn.Do`,
  tests `canMap`, and on acceptance writes `KeyInstance` and sends on the
  unbuffered `results` channel — its `res != nil` test compares the
  *parameter* `res`, a copy of the channel value that `do` later sets to
  nil in its own scope only, so the test is always true and the
  subsequent `for res != nil {}` busy-wait never exits, hence the inner
  goroutine of an accepting worker never reaches `cmdDone <- true`;
* the collector goroutine of `do` (receives the first value of
  `results`, sends the single `stop <- true` message, and exits its
  loop);
* the main `do` thread blocked in `wg.Wait()`.

Unbuffered channel communication is a rendezvous: one label joins the
blocked sender with a ready receiver. The scheduler is a list of labels;
a label that is not enabled in the current state is a no-op. -/

/-- Program counter of the inner goroutine of `doInstance` (twunproxy.go
lines 188-204). `idle`: not yet spawned. `running`: inside `conn.Do`.
`sendRes`: accepted, `KeyInstance` written, blocked on `res <-`.
`spinning`: publish received, busy-waiting in `for res != nil {}`
forever. `sendDone`: not accepted, blocked on `cmdDone <- true`.
`finished`: `cmdDone` handshake complete. -/
inductive InnerPC where
  | idle : InnerPC
  | running : InnerPC
  | sendRes : InnerPC
  | spinning : InnerPC
  | sendDone : InnerPC
  | finished : InnerPC
deriving DecidableEq

/-- Program counter of the outer body of `doInstance` (twunproxy.go lines
177-212). `start`: before `pool.Get()`. `sel`: blocked in the
`select`. `finished`: returned — the deferred `conn.Close()` and
`wg.Done()` have run. -/
inductive OuterPC where
  | start : OuterPC
  | sel : OuterPC
  | finished : OuterPC
deriving DecidableEq

/-- Program counter of the collector goroutine of `do` (twunproxy.go
lines 144-152). `recvRes`: blocked on `<-results`. `sendStop`: blocked
on `stop <- true`. `finished`: loop exited after nulling its copy of
`results`. -/
inductive CollPC where
  | recvRes : CollPC
  | sendStop : CollPC
  | finished : CollPC
deriving DecidableEq

/-- The error `do` initialises `res` with (twunproxy.go line 143). -/
def noMappingMsg : String :=
  "No results returned that could determine a key mapping."

/-- The initial `res` value of a discovery round. -/
def noMappingReturn : RedisReturn :=
  ⟨RVal.nil, some noMappingMsg⟩

/-- State of one discovery round. `writes` logs the pool index of every
`r.KeyInstance[cmd.key] = pool` assignment, `acquires`/`releases` log
`pool.Get()` / deferred `conn.Close()` per worker, `stopReceiver`
records which worker's select consumed the single `stop` message, and
`retVal` is set once `do` passes `wg.Wait()` and returns `res`. -/
structure RoundState where
  inner : List InnerPC
  outer : List OuterPC
  coll : CollPC
  wg : Nat
  res : RedisReturn
  writes : List Nat
  acquires : List Nat
  releases : List Nat
  stopReceiver : Option Nat
  retVal : Option RedisReturn

/-- The state in which `do` spawned all `n` workers: `wg.Add(1)` ran `n`
times, every worker is before `pool.Get()`, the collector waits on
`results`, and `res` holds the no-mapping error. -/
def roundStart (n : Nat) : RoundState :=
  { inner := List.replicate n .idle
    outer := List.replicate n .start
    coll := .recvRes
    wg := n
    res := noMappingReturn
    writes := []
    acquires := []
    releases := []
    stopReceiver := none
    retVal := none }

/-- Scheduler labels: each is one atomic step of one thread, rendezvous
labels join an unbuffered send with its receive. -/
inductive Label where
  | acquire : Nat → Label
  | eval : Nat → Label
  | pubRes : Nat → Label
  | recvStop : Nat → Label
  | doneSig : Nat → Label
  | ret : Label

/-- One step of the round. `replies` gives what `conn.Do` returns on each
pool's connection; `canMap` is the caller's acceptance predicate.

* `acquire i`: outer worker `i` runs `pool.Get()` (twunproxy.go line
  181, which cannot fail: `ConnGetter.Get` returns a `Conn` and no
  error), spawns the inner goroutine, and enters the select.
* `eval i`: `conn.Do` returns `replies[i]` and the inner goroutine tests
  `canMap val` (line 189). On acceptance the guard `res != nil` is true
  (`res` is a never-nil parameter copy), so `KeyInstance` is written
  (line 193) and the goroutine blocks sending on `results`; otherwise it
  blocks sending on `cmdDone`.
* `pubRes i`: rendezvous of `res <- RedisReturn{val, err}` (line 194)
  with the collector's `res = <-results` (line 147); the inner goroutine
  then busy-waits forever (lines 196-199), the collector moves on to
  `stop <- true`.
* `recvStop i`: rendezvous of the collector's single `stop <- true`
  (line 148) with worker `i`'s `case <-stop` (line 208); the outer body
  returns, releasing its connection and notifying the wait group; the
  collector nulls its `results` copy and exits.
* `doneSig i`: rendezvous of `cmdDone <- true` (line 203) with
  `case <-cmdDone` (line 210); inner and outer of worker `i` finish,
  the connection is released and the wait group notified.
* `ret`: `wg.Wait()` (line 155) unblocks once the counter is zero and
  `do` returns the current `res` (line 160). -/
def roundStep (replies : List RedisReturn) (canMap : RVal → Bool)
    (s : RoundState) : Label → Option RoundState
  | .acquire i =>
    match s.outer.get? i with
    | some .start =>
      some { s with
        outer := s.outer.set i .sel
        inner := s.inner.set i .running
        acquires := s.acquires ++ [i] }
    | _ => none
  | .eval i =>
    match s.inner.get? i, replies.get? i with
    | some .running, some r =>
      if canMap r.val then
        some { s with inner := s.inner.set i .sendRes, writes := s.writes ++ [i] }
      else
        some { s with inner := s.inner.set i .sendDone }
    | _, _ => none
  | .pubRes i =>
    match s.inner.get? i, s.coll, replies.get? i with
    | some .sendRes, .recvRes, some r =>
      some { s with inner := s.inner.set i .spinning, coll := .sendStop, res := r }
    | _, _, _ => none
  | .recvStop i =>
    match s.coll, s.outer.get? i with
    | .sendStop, some .sel =>
      some { s with
        coll := .finished
        outer := s.outer.set i .finished
        wg := s.wg - 1
        releases := s.releases ++ [i]
        stopReceiver := some i }
    | _, _ => none
  | .doneSig i =>
    match s.inner.get? i, s.outer.get? i with
    | some .sendDone, some .sel =>
      some { s with
        inner := s.inner.set i .finished
        outer := s.outer.set i .finished
        wg := s.wg - 1
        releases := s.releases ++ [i] }
    | _, _ => none
  | .ret =>
    match s.wg, s.retVal with
    | 0, none => some { s with retVal := some s.res }
    | _, _ => none

/-- Run a schedule from a state; labels not enabled in the current state
are skipped. -/
def runFrom (replies : List RedisReturn) (canMap : RVal → Bool) :
    RoundState → List Label → RoundState
  | s, [] => s
  | s, l :: ls =>
    match roundStep replies canMap s l with
    | some t => runFrom replies canMap t ls
    | none => runFrom replies canMap s ls

/-- A whole discovery round of `do` on an unmapped key, under a given
schedule: one worker per pool. -/
def runRound (replies : List RedisReturn) (canMap : RVal → Bool)
    (sched : List Label) : RoundState :=
  runFrom replies canMap (roundStart replies.length) sched

/-! ## The fast path of `do` (twunproxy.go lines 124-130) and dispatch -/

/-- A connection-layer event on the fast path, tagged with the pool it
touches. -/
inductive ConnEvent where
  | get : Nat → ConnEvent
  | invoke : Nat → String → List RVal → ConnEvent
  | close : Nat → ConnEvent

/-- The pool index an event touches. -/
def ConnEvent.shard : ConnEvent → Nat
  | .get i => i
  | .invoke i _ _ => i
  | .close i => i

/-- KeyInstance lookup (`r.KeyInstance[cmd.key]` with the two-result
form): the mapping is an association list from key to pool index. -/
def lookupKI : List (String × Nat) → String → Option Nat
  | [], _ => none
  | (k, v) :: t, key => if k = key then some v else lookupKI t key

/-- The fast path body (twunproxy.go lines 126-129): acquire a connection
from the mapped pool, issue the command through `conn.Do` with
`cmd.getArgs`, and return the connection's reply verbatim; the deferred
`conn.Close()` runs when `do` returns. `replies` gives what each pool's
connection returns for this command. -/
def doFast (replies : List RedisReturn) (m : Nat) (cmd : RedisCmd) :
    RedisReturn × List ConnEvent :=
  ((replies.get? m).getD ⟨RVal.nil, none⟩,
    [ConnEvent.get m, ConnEvent.invoke m cmd.name cmd.getArgs, ConnEvent.close m])

/-- Outcome of one `do` call: either the fast path ran (result plus its
connection events) or a discovery round ran to the given final state. -/
inductive DispatchOutcome where
  | fast : RedisReturn → List ConnEvent → DispatchOutcome
  | discovery : RoundState → DispatchOutcome

/-- The dispatcher `do` (twunproxy.go lines 124-161): consult
`KeyInstance` for the command's key; on a hit run the fast path against
the mapped pool only, otherwise run a discovery round over all pools. -/
def doDispatch (replies : List RedisReturn) (ki : List (String × Nat))
    (cmd : RedisCmd) (canMap : RVal → Bool) (sched : List Label) :
    DispatchOutcome :=
  match lookupKI ki cmd.key with
  | some m => .fast (doFast replies m cmd).1 (doFast replies m cmd).2
  | none => .discovery (runRound replies canMap sched)

/-! ## BLPop, commands.go revision (lines 15-40) -/

/-- The acceptance predicate of `BLPop` in commands.go (lines 18-21): the
two-result type assertion `v.([]interface{})` succeeds exactly on slice
values, so a timed-out (nil) reply is not accepted. -/
def blPopCanMap : RVal → Bool :=
  fun v => v.isArr

/-- The tail of `BLPop` in commands.go (lines 29-39) applied to the pair
`Do` returned: a non-nil error is returned as is; a slice reply yields
`string(r[1].([]byte))` — the index and the inner type assertion are
unguarded, so a slice without a byte slice at index 1 panics (`none`);
any other reply yields the "BLPOP timed out." error. -/
def blPopPost (v : RVal) (e : Option String) : Option (String × Option String) :=
  match e with
  | some msg => some ("", some msg)
  | none =>
    match v with
    | .arr l =>
      match l.get? 1 with
      | some (.bytes b) => some (b, none)
      | _ => none
    | _ => some ("", some "BLPOP timed out.")

/-! ## BLPop, twunproxy.go revision (lines 104-117) -/

/-- The acceptance predicate of `BLPop` in twunproxy.go (lines 105-107):
`v != nil`. -/
def blPopTwunCanMap : RVal → Bool :=
  fun v => !v.isNil

/-- The tail of `BLPop` in twunproxy.go (line 116):
`return string(v.([]interface{})[1].([]byte)), err` — both type
assertions and the index are unguarded and run before the error is even
looked at, so any value without a byte slice at index 1 of a slice
panics (`none`); otherwise the error is passed through untouched. -/
def blPopTwunPost (v : RVal) (e : Option String) : Option (String × Option String) :=
  match v with
  | .arr l =>
    match l.get? 1 with
    | some (.bytes b) => some (b, e)
    | _ => none
  | _ => none

/-- The `RedisCmd` both BLPop revisions build: name "BLPOP", the key, and
`timeout.Seconds()` as the single argument (`timeoutNs` is the raw
`time.Duration` nanosecond count). -/
def blPopCmd (key : String) (timeoutNs : Int) : RedisCmd :=
  ⟨"BLPOP", key, [RVal.durSec timeoutNs]⟩

/-! ## BGSave (commands.go lines 46-62) -/

/-- A connection-layer event of `BGSave`: `pool.Get()`, `c.Do("BGSAVE")`,
`time.Sleep(interval)`, or a deferred `c.Close()`. -/
inductive BgEvent where
  | get : Nat → BgEvent
  | invoke : Nat → String → BgEvent
  | sleep : BgEvent
  | close : Nat → BgEvent

/-- The loop of `BGSave` over the remaining pools. `idx` is the index of
the next pool, `cnt` the running count `i` of successful saves, and
`defs` the (LIFO) indices of connections whose `Close` is deferred to
the return of the method. Each pool's entry gives what `c.Do("BGSAVE")`
returns on it. On the first error the method returns `(i, err)` at once
and the deferred closes run; no later pool is touched. -/
def bgSaveGo : List (RVal × Option String) → Nat → Nat → List Nat →
    ((Nat × Option String) × List BgEvent)
  | [], _, cnt, defs => ((cnt, none), defs.map BgEvent.close)
  | (_, e) :: rest, idx, cnt, defs =>
    match e with
    | some msg =>
      ((cnt, some msg),
        BgEvent.get idx :: BgEvent.invoke idx "BGSAVE" ::
          (idx :: defs).map BgEvent.close)
    | none =>
      let r := bgSaveGo rest (idx + 1) (cnt + 1) (idx :: defs)
      (r.1, BgEvent.get idx :: BgEvent.invoke idx "BGSAVE" :: BgEvent.sleep :: r.2)

/-- BGSave (commands.go lines 46-62): iterate over `r.Pools` in order.
Returns the `(count, error)` pair and the event log. -/
def bgSave (pools : List (RVal × Option String)) :
    (Nat × Option String) × List BgEvent :=
  bgSaveGo pools 0 0 []

/-- The position and message of the first erroring pool, if any. -/
def firstErr : List (RVal × Option String) → Option (Nat × String)
  | [] => none
  | (_, some e) :: _ => some (0, e)
  | (_, none) :: t => (firstErr t).map (fun p => (p.1 + 1, p.2))

/-- The pools a `BGSave` event log issued the command to, in order. -/
def invokedShards (log : List BgEvent) : List Nat :=
  log.filterMap (fun e =>
    match e with
    | .invoke i _ => some i
    | _ => none)

/-! ## NewProxyConn (twunproxy.go lines 60-81) -/

/-- RedisPoolConfig (twunproxy.go lines 23-26): one named pool of the
Twemproxy configuration file. -/
structure RedisPoolConfig where
  servers : List String
  auth : String

/-- The parsed configuration, an association list of pool name to pool
config (the yaml map `m`). -/
def lookupConf : List (String × RedisPoolConfig) → String → Option RedisPoolConfig
  | [], _ => none
  | (k, v) :: t, key => if k = key then some v else lookupConf t key

/-- Go's `m[poolName]`: a missing key yields the zero value, here the
config with no servers and empty auth. -/
def confOf (m : List (String × RedisPoolConfig)) (poolName : String) :
    RedisPoolConfig :=
  (lookupConf m poolName).getD ⟨[], ""⟩

/-- The model of the constructed `ProxyConn` (twunproxy.go lines 49-52):
pool handles are the values the `create` factory returned, and
`keyInstance` is the key-to-pool mapping. -/
structure ProxyConn where
  pools : List Nat
  keyInstance : List (String × Nat)

/-- The loop over `conf.Servers` (twunproxy.go lines 73-75) filling the
pool slice, also logging each factory call as a `(server, auth)` pair in
call order. -/
def fillPools (servers : List String) (auth : String)
    (create : String → String → Nat) : List Nat × List (String × String) :=
  match servers with
  | [] => ([], [])
  | d :: t =>
    let r := fillPools t auth create
    (create d auth :: r.1, (d, auth) :: r.2)

/-- NewProxyConn (twunproxy.go lines 60-81). `readRes` stands for the
outcome of `ioutil.ReadFile` plus `yaml.Unmarshal`: an error there is
returned with a nil ProxyConn; otherwise the named pool's config (zero
value if absent) drives pool creation, and the key mapping starts empty
(`keyCap` is only a capacity hint for the map). The second component
logs the factory invocations. -/
def newProxyConn (readRes : Except String (List (String × RedisPoolConfig)))
    (poolName : String) (keyCap : Nat) (create : String → String → Nat) :
    Except String ProxyConn × List (String × String) :=
  match readRes with
  | .error e => (.error e, [])
  | .ok m =>
    let conf := confOf m poolName
    let p := fillPools conf.servers conf.auth create
    (.ok ⟨p.1, []⟩, p.2)

/-! ## Invariants of the discovery round

`RoundInv` collects the facts preserved by every `roundStep`; the claims
about arbitrary schedules follow from it. -/

/-- How many outer worker bodies have returned (each such return ran the
deferred `conn.Close()` and `wg.Done()`). -/
def doneCount : List OuterPC → Nat
  | [] => 0
  | .finished :: t => doneCount t + 1
  | _ :: t => doneCount t

/-- The facts every reachable state of a discovery round satisfies.
`replies` is the per-pool `conn.Do` outcome and `canMap` the acceptance
predicate; the round has `replies.length` workers. -/
structure RoundInv (replies : List RedisReturn) (canMap : RVal → Bool)
    (s : RoundState) : Prop where
  innerLen : s.inner.length = replies.length
  outerLen : s.outer.length = replies.length
  wgCount : s.wg + doneCount s.outer = replies.length
  relLen : s.releases.length = doneCount s.outer
  relNodup : s.releases.Nodup
  relDone : ∀ i, i ∈ s.releases ↔ s.outer.get? i = some .finished
  idleStart : ∀ i, s.inner.get? i = some .idle ↔ s.outer.get? i = some .start
  writesInner : ∀ i, i ∈ s.writes ↔
    (s.inner.get? i = some .sendRes ∨ s.inner.get? i = some .spinning)
  writesAccept : ∀ i r, i ∈ s.writes → replies.get? i = some r →
    canMap r.val = true
  rejectPC : ∀ i,
    (s.inner.get? i = some .sendDone ∨ s.inner.get? i = some .finished) →
    ∀ r, replies.get? i = some r → canMap r.val = false
  outerProv : ∀ i, s.outer.get? i = some .finished →
    (s.inner.get? i = some .finished ∨ s.stopReceiver = some i)
  stopColl : s.stopReceiver = none ↔ s.coll ≠ .finished
  resOk : s.res = noMappingReturn ∨
    ∃ i r, replies.get? i = some r ∧ canMap r.val = true ∧ s.res = r
  retOk : ∀ r, s.retVal = some r → s.wg = 0 ∧ (r = noMappingReturn ∨
    ∃ j rr, replies.get? j = some rr ∧ canMap rr.val = true ∧ r = rr)

/-! ## Concrete inputs used by the claim theorems -/

/-- A pool whose `conn.Do` returns a nil reply and no error. -/
def nilReply : RedisReturn := ⟨RVal.nil, none⟩

/-- The adversarial acceptance predicate `func(v interface{}) bool
{ return true }`. -/
def acceptAll : RVal → Bool := fun _ => true

/-- A never-accepting predicate. -/
def rejectAll : RVal → Bool := fun _ => false

/-- A schedule of a two-pool round in which both workers accept: both
acquire, both evaluate (each writing `KeyInstance`), worker 0 publishes
first, and the single `stop` message is consumed by worker 1. -/
def schedTwoAccept : List Label :=
  [.acquire 0, .acquire 1, .eval 0, .eval 1, .pubRes 0, .recvStop 1]

/-- A three-pool schedule that runs the three `pool.Get()` calls. -/
def schedAcq3 : List Label := [.acquire 0, .acquire 1, .acquire 2]

/-- A complete one-pool round whose single worker is not accepted. -/
def schedNoAccept1 : List Label := [.acquire 0, .eval 0, .doneSig 0, .ret]

/-- A complete two-pool round: worker 0 rejected, worker 1 accepted and
publishing, worker 1 consuming the stop message. -/
def schedOneWinner : List Label :=
  [.acquire 0, .acquire 1, .eval 0, .eval 1, .doneSig 0, .pubRes 1,
    .recvStop 1, .ret]

/-- Pool replies for the one-winner round: pool 0 errors with a nil
value, pool 1 returns a BLPOP-style two-element slice. -/
def oneWinnerReplies : List RedisReturn :=
  [⟨RVal.nil, some "io error"⟩,
    ⟨RVal.arr [RVal.bytes "key", RVal.bytes "payload"], none⟩]

/-- Whether a value is a byte slice. -/
def RVal.isBytes : RVal → Bool
  | .bytes _ => true
  | _ => false

/-- The property named by the claim about the unguarded BLPop: a
non-empty `[]interface{}` slice all of whose elements are byte
slices. -/
def isNonEmptyByteSliceArr (v : RVal) : Bool :=
  match v with
  | .arr l => !l.isEmpty && l.all RVal.isBytes
  | _ => false

/-- A value that is not a non-empty slice of byte slices (its first
element is nil) but still has a byte slice at index 1. -/
def mixedPair : RVal := RVal.arr [RVal.nil, RVal.bytes "x"]

/-! ## List helper lemmas used by the round semantics proofs -/

theorem lgetSetSelf {α : Type} : ∀ (l : List α) (i : Nat) (b : α),
    i < l.length → (l.set i b).get? i = some b
  | _ :: _, 0, _, _ => rfl
  | _ :: t, i + 1, b, h => lgetSetSelf t i b (Nat.lt_of_succ_lt_succ h)

theorem lgetSetOther {α : Type} : ∀ (l : List α) (i j : Nat) (b : α),
    i ≠ j → (l.set i b).get? j = l.get? j
  | [], _, _, _, _ => rfl
  | _ :: _, 0, 0, _, h => absurd rfl h
  | _ :: _, 0, _ + 1, _, _ => rfl
  | _ :: _, _ + 1, 0, _, _ => rfl
  | _ :: t, i + 1, j + 1, b, h =>
    lgetSetOther t i j b (fun e => h (congrArg Nat.succ e))

theorem lgetLtLength {α : Type} : ∀ (l : List α) (i : Nat) (a : α),
    l.get? i = some a → i < l.length
  | _ :: _, 0, _, _ => Nat.succ_pos _
  | _ :: t, i + 1, a, h => Nat.succ_lt_succ (lgetLtLength t i a h)

theorem lgetOfLt {α : Type} : ∀ (l : List α) (i : Nat),
    i < l.length → ∃ a, l.get? i = some a
  | a :: _, 0, _ => ⟨a, rfl⟩
  | _ :: t, i + 1, h => lgetOfLt t i (Nat.lt_of_succ_lt_succ h)

theorem lgetReplicate {α : Type} (a : α) : ∀ (n i : Nat),
    i < n → (List.replicate n a).get? i = some a
  | _ + 1, 0, _ => rfl
  | n + 1, i + 1, h => lgetReplicate a n i (Nat.lt_of_succ_lt_succ h)

theorem doneCount_cons_finished (t : List OuterPC) :
    doneCount (.finished :: t) = doneCount t + 1 := rfl

theorem doneCount_cons_other (a : OuterPC) (t : List OuterPC)
    (h : a ≠ .finished) : doneCount (a :: t) = doneCount t := by
  cases a with
  | finished => exact absurd rfl h
  | start => rfl
  | sel => rfl

theorem doneCount_set_finished : ∀ (l : List OuterPC) (i : Nat) (pc : OuterPC),
    l.get? i = some pc → pc ≠ .finished →
    doneCount (l.set i .finished) = doneCount l + 1
  | a :: t, 0, pc, h, hne => by
    have ha : a = pc := Option.some.inj h
    subst ha
    rw [List.set]
    rw [doneCount_cons_finished, doneCount_cons_other a t hne]
  | a :: t, i + 1, pc, h, hne => by
    rw [List.set]
    cases ha : decide (a = OuterPC.finished) with
    | true =>
      have ha' : a = OuterPC.finished := of_decide_eq_true ha
      subst ha'
      rw [doneCount_cons_finished, doneCount_cons_finished,
        doneCount_set_finished t i pc h hne]
    | false =>
      have ha' : a ≠ OuterPC.finished := of_decide_eq_false ha
      rw [doneCount_cons_other a _ ha', doneCount_cons_other a t ha',
        doneCount_set_finished t i pc h hne]

theorem doneCount_set_keep : ∀ (l : List OuterPC) (i : Nat) (b : OuterPC),
    b ≠ .finished → (∀ pc, l.get? i = some pc → pc ≠ .finished) →
    doneCount (l.set i b) = doneCount l
  | [], _, _, _, _ => rfl
  | a :: t, 0, b, hb, h => by
    have ha : a ≠ OuterPC.finished := h a rfl
    rw [List.set, doneCount_cons_other b t hb, doneCount_cons_other a t ha]
  | a :: t, i + 1, b, hb, h => by
    rw [List.set]
    cases ha : decide (a = OuterPC.finished) with
    | true =>
      have ha' : a = OuterPC.finished := of_decide_eq_true ha
      subst ha'
      rw [doneCount_cons_finished, doneCount_cons_finished,
        doneCount_set_keep t i b hb h]
    | false =>
      have ha' : a ≠ OuterPC.finished := of_decide_eq_false ha
      rw [doneCount_cons_other a _ ha', doneCount_cons_other a t ha',
        doneCount_set_keep t i b hb h]

theorem doneCount_le_length : ∀ l : List OuterPC, doneCount l ≤ l.length
  | [] => Nat.le_refl 0
  | a :: t => by
    cases ha : decide (a = OuterPC.finished) with
    | true =>
      have ha' : a = OuterPC.finished := of_decide_eq_true ha
      subst ha'
      rw [doneCount_cons_finished]
      exact Nat.succ_le_succ (doneCount_le_length t)
    | false =>
      have ha' : a ≠ OuterPC.finished := of_decide_eq_false ha
      rw [doneCount_cons_other a t ha']
      exact Nat.le_succ_of_le (doneCount_le_length t)

theorem doneCount_full : ∀ (l : List OuterPC), doneCount l = l.length →
    ∀ (i : Nat) (pc : OuterPC), l.get? i = some pc → pc = .finished
  | a :: t, hfull, 0, pc, h => by
    have ha : a = pc := Option.some.inj h
    subst ha
    cases ha' : decide (a = OuterPC.finished) with
    | true => exact of_decide_eq_true ha'
    | false =>
      have hne : a ≠ OuterPC.finished := of_decide_eq_false ha'
      rw [doneCount_cons_other a t hne, List.length_cons] at hfull
      have hle := doneCount_le_length t
      exact absurd hle (by omega)
  | a :: t, hfull, i + 1, pc, h => by
    cases ha : decide (a = OuterPC.finished) with
    | true =>
      have ha' : a = OuterPC.finished := of_decide_eq_true ha
      subst ha'
      rw [doneCount_cons_finished, List.length_cons] at hfull
      exact doneCount_full t (Nat.succ.inj hfull) i pc h
    | false =>
      have hne : a ≠ OuterPC.finished := of_decide_eq_false ha
      rw [doneCount_cons_other a t hne, List.length_cons] at hfull
      have hle := doneCount_le_length t
      exact absurd hle (by omega)

theorem doneCount_replicate_start : ∀ n : Nat,
    doneCount (List.replicate n .start) = 0
  | 0 => rfl
  | n + 1 => doneCount_replicate_start n

theorem roundInv_acquire (replies : List RedisReturn) (canMap : RVal → Bool)
    (s s' : RoundState) (i : Nat)
    (hs : roundStep replies canMap s (.acquire i) = some s')
    (hv : RoundInv replies canMap s) : RoundInv replies canMap s' := by
  simp only [roundStep] at hs
  split at hs
  next heq =>
    cases hs
    have hlt : i < s.outer.length := lgetLtLength _ i _ heq
    have hlti : i < s.inner.length := by
      rw [hv.innerLen, ← hv.outerLen]; exact hlt
    have hidle : s.inner.get? i = some .idle := (hv.idleStart i).mpr heq
    refine
      { innerLen := ?_, outerLen := ?_, wgCount := ?_, relLen := ?_
        relNodup := ?_, relDone := ?_, idleStart := ?_, writesInner := ?_
        writesAccept := ?_, rejectPC := ?_, outerProv := ?_, stopColl := ?_
        resOk := ?_, retOk := ?_ } <;> simp only
    · rw [List.length_set]; exact hv.innerLen
    · rw [List.length_set]; exact hv.outerLen
    · rw [doneCount_set_keep s.outer i .sel (by simp)
        (fun pc hpc => by rw [heq] at hpc; cases hpc; simp)]
      exact hv.wgCount
    · rw [doneCount_set_keep s.outer i .sel (by simp)
        (fun pc hpc => by rw [heq] at hpc; cases hpc; simp)]
      exact hv.relLen
    · exact hv.relNodup
    · intro j
      by_cases hij : i = j
      · subst hij
        rw [lgetSetSelf s.outer i .sel hlt]
        constructor
        · intro hm
          exact absurd ((hv.relDone i).mp hm) (by rw [heq]; simp)
        · intro hh; exact absurd hh (by simp)
      · rw [lgetSetOther s.outer i j .sel hij]; exact hv.relDone j
    · intro j
      by_cases hij : i = j
      · subst hij
        rw [lgetSetSelf s.outer i .sel hlt, lgetSetSelf s.inner i .running hlti]
        constructor
        · intro hh; exact absurd hh (by simp)
        · intro hh; exact absurd hh (by simp)
      · rw [lgetSetOther s.outer i j .sel hij, lgetSetOther s.inner i j .running hij]
        exact hv.idleStart j
    · intro j
      by_cases hij : i = j
      · subst hij
        rw [lgetSetSelf s.inner i .running hlti]
        constructor
        · intro hm
          rcases (hv.writesInner i).mp hm with hc | hc <;>
            (rw [hidle] at hc; cases hc)
        · intro hh
          rcases hh with hc | hc <;> exact absurd hc (by simp)
      · rw [lgetSetOther s.inner i j .running hij]; exact hv.writesInner j
    · exact hv.writesAccept
    · intro j hj
      by_cases hij : i = j
      · subst hij
        rw [lgetSetSelf s.inner i .running hlti] at hj
        rcases hj with hc | hc <;> exact absurd hc (by simp)
      · rw [lgetSetOther s.inner i j .running hij] at hj
        exact hv.rejectPC j hj
    · intro j hj
      by_cases hij : i = j
      · subst hij
        rw [lgetSetSelf s.outer i .sel hlt] at hj
        exact absurd hj (by simp)
      · rw [lgetSetOther s.outer i j .sel hij] at hj
        rcases hv.outerProv j hj with hc | hc
        · left; rw [lgetSetOther s.inner i j .running hij]; exact hc
        · right; exact hc
    · exact hv.stopColl
    · exact hv.resOk
    · exact hv.retOk
  next => exact Option.noConfusion hs

theorem roundInv_eval (replies : List RedisReturn) (canMap : RVal → Bool)
    (s s' : RoundState) (i : Nat)
    (hs : roundStep replies canMap s (.eval i) = some s')
    (hv : RoundInv replies canMap s) : RoundInv replies canMap s' := by
  simp only [roundStep] at hs
  split at hs
  next r hrun hrep =>
    have hlti : i < s.inner.length := lgetLtLength _ i _ hrun
    have hnidle : s.inner.get? i ≠ some .idle := by rw [hrun]; simp
    have hnstart : s.outer.get? i ≠ some .start :=
      fun hh => hnidle ((hv.idleStart i).mpr hh)
    split at hs
    next hacc =>
      cases hs
      refine
        { innerLen := ?_, outerLen := ?_, wgCount := ?_, relLen := ?_
          relNodup := ?_, relDone := ?_, idleStart := ?_, writesInner := ?_
          writesAccept := ?_, rejectPC := ?_, outerProv := ?_, stopColl := ?_
          resOk := ?_, retOk := ?_ } <;> simp only
      · rw [List.length_set]; exact hv.innerLen
      · exact hv.outerLen
      · exact hv.wgCount
      · exact hv.relLen
      · exact hv.relNodup
      · exact hv.relDone
      · intro j
        by_cases hij : i = j
        · subst hij
          rw [lgetSetSelf s.inner i .sendRes hlti]
          constructor
          · intro hh; exact absurd hh (by simp)
          · intro hh; exact absurd hh hnstart
        · rw [lgetSetOther s.inner i j .sendRes hij]; exact hv.idleStart j
      · intro j
        by_cases hij : i = j
        · subst hij
          rw [lgetSetSelf s.inner i .sendRes hlti]
          simp
        · rw [lgetSetOther s.inner i j .sendRes hij]
          rw [List.mem_append, List.mem_singleton]
          constructor
          · intro hh
            rcases hh with hm | hm
            · exact (hv.writesInner j).mp hm
            · exact absurd hm.symm hij
          · intro hh; exact Or.inl ((hv.writesInner j).mpr hh)
      · intro j rr hm hr
        rw [List.mem_append, List.mem_singleton] at hm
        rcases hm with hm | hm
        · exact hv.writesAccept j rr hm hr
        · subst hm
          rw [hrep] at hr
          cases hr
          exact hacc
      · intro j hj
        by_cases hij : i = j
        · subst hij
          rw [lgetSetSelf s.inner i .sendRes hlti] at hj
          rcases hj with hc | hc <;> exact absurd hc (by simp)
        · rw [lgetSetOther s.inner i j .sendRes hij] at hj
          exact hv.rejectPC j hj
      · intro j hj
        rcases hv.outerProv j hj with hc | hc
        · by_cases hij : i = j
          · subst hij
            rw [hrun] at hc
            cases hc
          · left; rw [lgetSetOther s.inner i j .sendRes hij]; exact hc
        · right; exact hc
      · exact hv.stopColl
      · exact hv.resOk
      · exact hv.retOk
    next hacc =>
      cases hs
      have hacc' : canMap r.val = false := by
        cases hb : canMap r.val with
        | true => exact absurd hb hacc
        | false => rfl
      refine
        { innerLen := ?_, outerLen := ?_, wgCount := ?_, relLen := ?_
          relNodup := ?_, relDone := ?_, idleStart := ?_, writesInner := ?_
          writesAccept := ?_, rejectPC := ?_, outerProv := ?_, stopColl := ?_
          resOk := ?_, retOk := ?_ } <;> simp only
      · rw [List.length_set]; exact hv.innerLen
      · exact hv.outerLen
      · exact hv.wgCount
      · exact hv.relLen
      · exact hv.relNodup
      · exact hv.relDone
      · intro j
        by_cases hij : i = j
        · subst hij
          rw [lgetSetSelf s.inner i .sendDone hlti]
          constructor
          · intro hh; exact absurd hh (by simp)
          · intro hh; exact absurd hh hnstart
        · rw [lgetSetOther s.inner i j .sendDone hij]; exact hv.idleStart j
      · intro j
        by_cases hij : i = j
        · subst hij
          rw [lgetSetSelf s.inner i .sendDone hlti]
          constructor
          · intro hm
            rcases (hv.writesInner i).mp hm with hc | hc <;>
              (rw [hrun] at hc; cases hc)
          · intro hh; rcases hh with hc | hc <;> exact absurd hc (by simp)
        · rw [lgetSetOther s.inner i j .sendDone hij]; exact hv.writesInner j
      · exact hv.writesAccept
      · intro j hj rr hr
        by_cases hij : i = j
        · subst hij
          rw [hrep] at hr
          cases hr
          exact hacc'
        · rw [lgetSetOther s.inner i j .sendDone hij] at hj
          exact hv.rejectPC j hj rr hr
      · intro j hj
        rcases hv.outerProv j hj with hc | hc
        · by_cases hij : i = j
          · subst hij
            rw [hrun] at hc
            cases hc
          · left; rw [lgetSetOther s.inner i j .sendDone hij]; exact hc
        · right; exact hc
      · exact hv.stopColl
      · exact hv.resOk
      · exact hv.retOk
  next => exact Option.noConfusion hs

theorem roundInv_pubRes (replies : List RedisReturn) (canMap : RVal → Bool)
    (s s' : RoundState) (i : Nat)
    (hs : roundStep replies canMap s (.pubRes i) = some s')
    (hv : RoundInv replies canMap s) : RoundInv replies canMap s' := by
  simp only [roundStep] at hs
  split at hs
  next r hsr hcoll hrep =>
    cases hs
    have hlti : i < s.inner.length := lgetLtLength _ i _ hsr
    have hw : i ∈ s.writes := (hv.writesInner i).mpr (Or.inl hsr)
    have hnidle : s.inner.get? i ≠ some .idle := by rw [hsr]; simp
    have hnstart : s.outer.get? i ≠ some .start :=
      fun hh => hnidle ((hv.idleStart i).mpr hh)
    have hstop : s.stopReceiver = none := hv.stopColl.mpr (by rw [hcoll]; simp)
    refine
      { innerLen := ?_, outerLen := ?_, wgCount := ?_, relLen := ?_
        relNodup := ?_, relDone := ?_, idleStart := ?_, writesInner := ?_
        writesAccept := ?_, rejectPC := ?_, outerProv := ?_, stopColl := ?_
        resOk := ?_, retOk := ?_ } <;> simp only
    · rw [List.length_set]; exact hv.innerLen
    · exact hv.outerLen
    · exact hv.wgCount
    · exact hv.relLen
    · exact hv.relNodup
    · exact hv.relDone
    · intro j
      by_cases hij : i = j
      · subst hij
        rw [lgetSetSelf s.inner i .spinning hlti]
        constructor
        · intro hh; exact absurd hh (by simp)
        · intro hh; exact absurd hh hnstart
      · rw [lgetSetOther s.inner i j .spinning hij]; exact hv.idleStart j
    · intro j
      by_cases hij : i = j
      · subst hij
        rw [lgetSetSelf s.inner i .spinning hlti]
        constructor
        · intro _; exact Or.inr rfl
        · intro _; exact hw
      · rw [lgetSetOther s.inner i j .spinning hij]; exact hv.writesInner j
    · exact hv.writesAccept
    · intro j hj
      by_cases hij : i = j
      · subst hij
        rw [lgetSetSelf s.inner i .spinning hlti] at hj
        rcases hj with hc | hc <;> exact absurd hc (by simp)
      · rw [lgetSetOther s.inner i j .spinning hij] at hj
        exact hv.rejectPC j hj
    · intro j hj
      rcases hv.outerProv j hj with hc | hc
      · by_cases hij : i = j
        · subst hij
          rw [hsr] at hc
          cases hc
        · left; rw [lgetSetOther s.inner i j .spinning hij]; exact hc
      · right; exact hc
    · rw [hstop]
      constructor
      · intro _; simp
      · intro _; rfl
    · right
      exact ⟨i, r, hrep, hv.writesAccept i r hw hrep, rfl⟩
    · exact hv.retOk
  next => exact Option.noConfusion hs

theorem roundInv_recvStop (replies : List RedisReturn) (canMap : RVal → Bool)
    (s s' : RoundState) (i : Nat)
    (hs : roundStep replies canMap s (.recvStop i) = some s')
    (hv : RoundInv replies canMap s) : RoundInv replies canMap s' := by
  simp only [roundStep] at hs
  split at hs
  next hcoll hsel =>
    cases hs
    have hlt : i < s.outer.length := lgetLtLength _ i _ hsel
    have hstop : s.stopReceiver = none := hv.stopColl.mpr (by rw [hcoll]; simp)
    have hnotmem : i ∉ s.releases := by
      intro hm
      have := (hv.relDone i).mp hm
      rw [hsel] at this
      cases this
    refine
      { innerLen := ?_, outerLen := ?_, wgCount := ?_, relLen := ?_
        relNodup := ?_, relDone := ?_, idleStart := ?_, writesInner := ?_
        writesAccept := ?_, rejectPC := ?_, outerProv := ?_, stopColl := ?_
        resOk := ?_, retOk := ?_ } <;> simp only
    · exact hv.innerLen
    · rw [List.length_set]; exact hv.outerLen
    · rw [doneCount_set_finished s.outer i .sel hsel (by simp)]
      have hwg : 1 ≤ s.wg := by
        cases hz : s.wg with
        | zero =>
          have hc := hv.wgCount
          rw [hz, Nat.zero_add] at hc
          have hfull := doneCount_full s.outer (by rw [hc, hv.outerLen]) i _ hsel
          cases hfull
        | succ k => exact Nat.succ_le_succ (Nat.zero_le k)
      have := hv.wgCount
      omega
    · rw [doneCount_set_finished s.outer i .sel hsel (by simp),
        List.length_append, List.length_singleton]
      have := hv.relLen
      omega
    · rw [← List.concat_eq_append]
      exact List.Nodup.concat hnotmem hv.relNodup
    · intro j
      by_cases hij : i = j
      · subst hij
        rw [lgetSetSelf s.outer i .finished hlt]
        constructor
        · intro _; rfl
        · intro _
          rw [List.mem_append, List.mem_singleton]
          exact Or.inr rfl
      · rw [lgetSetOther s.outer i j .finished hij,
          List.mem_append, List.mem_singleton]
        constructor
        · intro hh
          rcases hh with hm | hm
          · exact (hv.relDone j).mp hm
          · exact absurd hm.symm hij
        · intro hh; exact Or.inl ((hv.relDone j).mpr hh)
    · intro j
      by_cases hij : i = j
      · subst hij
        rw [lgetSetSelf s.outer i .finished hlt]
        have hnidle : s.inner.get? i ≠ some .idle := by
          intro hh
          have := (hv.idleStart i).mp hh
          rw [hsel] at this
          cases this
        constructor
        · intro hh; exact absurd hh hnidle
        · intro hh; exact absurd hh (by simp)
      · rw [lgetSetOther s.outer i j .finished hij]; exact hv.idleStart j
    · exact hv.writesInner
    · exact hv.writesAccept
    · exact hv.rejectPC
    · intro j hj
      by_cases hij : i = j
      · subst hij; exact Or.inr rfl
      · rw [lgetSetOther s.outer i j .finished hij] at hj
        rcases hv.outerProv j hj with hc | hc
        · exact Or.inl hc
        · rw [hstop] at hc
          cases hc
    · constructor
      · intro hh; exact absurd hh (by simp)
      · intro hh; exact absurd rfl hh
    · exact hv.resOk
    · intro r hr
      have h0 := (hv.retOk r hr).1
      have hc := hv.wgCount
      rw [h0, Nat.zero_add] at hc
      have hfull := doneCount_full s.outer (by rw [hc, hv.outerLen]) i _ hsel
      cases hfull
  next => exact Option.noConfusion hs

theorem roundInv_doneSig (replies : List RedisReturn) (canMap : RVal → Bool)
    (s s' : RoundState) (i : Nat)
    (hs : roundStep replies canMap s (.doneSig i) = some s')
    (hv : RoundInv replies canMap s) : RoundInv replies canMap s' := by
  simp only [roundStep] at hs
  split at hs
  next hsd hsel =>
    cases hs
    have hlt : i < s.outer.length := lgetLtLength _ i _ hsel
    have hlti : i < s.inner.length := lgetLtLength _ i _ hsd
    have hnotmem : i ∉ s.releases := by
      intro hm
      have := (hv.relDone i).mp hm
      rw [hsel] at this
      cases this
    refine
      { innerLen := ?_, outerLen := ?_, wgCount := ?_, relLen := ?_
        relNodup := ?_, relDone := ?_, idleStart := ?_, writesInner := ?_
        writesAccept := ?_, rejectPC := ?_, outerProv := ?_, stopColl := ?_
        resOk := ?_, retOk := ?_ } <;> simp only
    · rw [List.length_set]; exact hv.innerLen
    · rw [List.length_set]; exact hv.outerLen
    · rw [doneCount_set_finished s.outer i .sel hsel (by simp)]
      have hwg : 1 ≤ s.wg := by
        cases hz : s.wg with
        | zero =>
          have hc := hv.wgCount
          rw [hz, Nat.zero_add] at hc
          have hfull := doneCount_full s.outer (by rw [hc, hv.outerLen]) i _ hsel
          cases hfull
        | succ k => exact Nat.succ_le_succ (Nat.zero_le k)
      have := hv.wgCount
      omega
    · rw [doneCount_set_finished s.outer i .sel hsel (by simp),
        List.length_append, List.length_singleton]
      have := hv.relLen
      omega
    · rw [← List.concat_eq_append]
      exact List.Nodup.concat hnotmem hv.relNodup
    · intro j
      by_cases hij : i = j
      · subst hij
        rw [lgetSetSelf s.outer i .finished hlt]
        constructor
        · intro _; rfl
        · intro _
          rw [List.mem_append, List.mem_singleton]
          exact Or.inr rfl
      · rw [lgetSetOther s.outer i j .finished hij,
          List.mem_append, List.mem_singleton]
        constructor
        · intro hh
          rcases hh with hm | hm
          · exact (hv.relDone j).mp hm
          · exact absurd hm.symm hij
        · intro hh; exact Or.inl ((hv.relDone j).mpr hh)
    · intro j
      by_cases hij : i = j
      · subst hij
        rw [lgetSetSelf s.outer i .finished hlt,
          lgetSetSelf s.inner i .finished hlti]
        constructor
        · intro hh; exact absurd hh (by simp)
        · intro hh; exact absurd hh (by simp)
      · rw [lgetSetOther s.outer i j .finished hij,
          lgetSetOther s.inner i j .finished hij]
        exact hv.idleStart j
    · intro j
      by_cases hij : i = j
      · subst hij
        rw [lgetSetSelf s.inner i .finished hlti]
        constructor
        · intro hm
          rcases (hv.writesInner i).mp hm with hc | hc <;>
            (rw [hsd] at hc; cases hc)
        · intro hh; rcases hh with hc | hc <;> exact absurd hc (by simp)
      · rw [lgetSetOther s.inner i j .finished hij]; exact hv.writesInner j
    · exact hv.writesAccept
    · intro j hj rr hr
      by_cases hij : i = j
      · subst hij
        exact hv.rejectPC i (Or.inl hsd) rr hr
      · rw [lgetSetOther s.inner i j .finished hij] at hj
        exact hv.rejectPC j hj rr hr
    · intro j hj
      by_cases hij : i = j
      · subst hij
        exact Or.inl (lgetSetSelf s.inner i .finished hlti)
      · rw [lgetSetOther s.outer i j .finished hij] at hj
        rcases hv.outerProv j hj with hc | hc
        · exact Or.inl (by rw [lgetSetOther s.inner i j .finished hij]; exact hc)
        · exact Or.inr hc
    · exact hv.stopColl
    · exact hv.resOk
    · intro r hr
      have h0 := (hv.retOk r hr).1
      have hc := hv.wgCount
      rw [h0, Nat.zero_add] at hc
      have hfull := doneCount_full s.outer (by rw [hc, hv.outerLen]) i _ hsel
      cases hfull
  next => exact Option.noConfusion hs

theorem roundInv_ret (replies : List RedisReturn) (canMap : RVal → Bool)
    (s s' : RoundState)
    (hs : roundStep replies canMap s .ret = some s')
    (hv : RoundInv replies canMap s) : RoundInv replies canMap s' := by
  simp only [roundStep] at hs
  split at hs
  next hwg hret =>
    cases hs
    refine
      { innerLen := hv.innerLen, outerLen := hv.outerLen, wgCount := hv.wgCount
        relLen := hv.relLen, relNodup := hv.relNodup, relDone := hv.relDone
        idleStart := hv.idleStart, writesInner := hv.writesInner
        writesAccept := hv.writesAccept, rejectPC := hv.rejectPC
        outerProv := hv.outerProv, stopColl := hv.stopColl
        resOk := hv.resOk, retOk := ?_ }
    intro r hr
    simp only at hr
    have hres : s.res = r := Option.some.inj hr
    constructor
    · exact hwg
    · rcases hv.resOk with hc | ⟨j, rr, h1, h2, h3⟩
      · exact Or.inl (by rw [← hres, hc])
      · exact Or.inr ⟨j, rr, h1, h2, by rw [← hres, h3]⟩
  next => exact Option.noConfusion hs

theorem roundInv_step (replies : List RedisReturn) (canMap : RVal → Bool)
    (s s' : RoundState) (l : Label)
    (hs : roundStep replies canMap s l = some s')
    (hv : RoundInv replies canMap s) : RoundInv replies canMap s' := by
  cases l with
  | acquire i => exact roundInv_acquire replies canMap s s' i hs hv
  | eval i => exact roundInv_eval replies canMap s s' i hs hv
  | pubRes i => exact roundInv_pubRes replies canMap s s' i hs hv
  | recvStop i => exact roundInv_recvStop replies canMap s s' i hs hv
  | doneSig i => exact roundInv_doneSig replies canMap s s' i hs hv
  | ret => exact roundInv_ret replies canMap s s' hs hv

theorem roundInv_runFrom (replies : List RedisReturn) (canMap : RVal → Bool) :
    ∀ (ls : List Label) (s : RoundState), RoundInv replies canMap s →
    RoundInv replies canMap (runFrom replies canMap s ls)
  | [], _, hv => hv
  | l :: ls, s, hv => by
    rw [runFrom]
    cases hstep : roundStep replies canMap s l with
    | some t =>
      exact roundInv_runFrom replies canMap ls t
        (roundInv_step replies canMap s t l hstep hv)
    | none => exact roundInv_runFrom replies canMap ls s hv

theorem roundInv_start (replies : List RedisReturn) (canMap : RVal → Bool) :
    RoundInv replies canMap (roundStart replies.length) := by
  refine
    { innerLen := ?_, outerLen := ?_, wgCount := ?_, relLen := ?_
      relNodup := ?_, relDone := ?_, idleStart := ?_, writesInner := ?_
      writesAccept := ?_, rejectPC := ?_, outerProv := ?_, stopColl := ?_
      resOk := ?_, retOk := ?_ } <;> simp only [roundStart]
  · exact List.length_replicate _ _
  · exact List.length_replicate _ _
  · rw [doneCount_replicate_start]
    omega
  · rw [doneCount_replicate_start]
    rfl
  · exact List.nodup_nil
  · intro j
    constructor
    · intro hh; cases hh
    · intro hh
      by_cases hj : j < replies.length
      · rw [lgetReplicate _ _ j hj] at hh
        cases hh
      · rw [List.get?_eq_none.mpr (by rw [List.length_replicate]; omega)] at hh
        cases hh
  · intro j
    by_cases hj : j < replies.length
    · rw [lgetReplicate _ _ j hj, lgetReplicate _ _ j hj]
      constructor <;> (intro _; rfl)
    · rw [List.get?_eq_none.mpr (by rw [List.length_replicate]; omega),
        List.get?_eq_none.mpr (by rw [List.length_replicate]; omega)]
      constructor <;> (intro hh; cases hh)
  · intro j
    constructor
    · intro hh; cases hh
    · intro hh
      by_cases hj : j < replies.length
      · rw [lgetReplicate _ _ j hj] at hh
        rcases hh with hc | hc <;> cases hc
      · rw [List.get?_eq_none.mpr (by rw [List.length_replicate]; omega)] at hh
        rcases hh with hc | hc <;> cases hc
  · intro j r hm
    cases hm
  · intro j hj
    by_cases hjl : j < replies.length
    · rw [lgetReplicate _ _ j hjl] at hj
      rcases hj with hc | hc <;> cases hc
    · rw [List.get?_eq_none.mpr (by rw [List.length_replicate]; omega)] at hj
      rcases hj with hc | hc <;> cases hc
  · intro j hj
    by_cases hjl : j < replies.length
    · rw [lgetReplicate _ _ j hjl] at hj
      cases hj
    · rw [List.get?_eq_none.mpr (by rw [List.length_replicate]; omega)] at hj
      cases hj
  · constructor
    · intro _; simp
    · intro _; trivial
  · exact Or.inl trivial
  · intro r hr
    cases hr

theorem roundInv_runRound (replies : List RedisReturn) (canMap : RVal → Bool)
    (sched : List Label) :
    RoundInv replies canMap (runRound replies canMap sched) :=
  roundInv_runFrom replies canMap sched (roundStart replies.length)
    (roundInv_start replies canMap)

/-! ## Corollaries of the round invariant -/

/-- If `do` returned from a discovery round, its wait group hit zero, so
every outer worker body has returned. -/
theorem round_all_finished (replies : List RedisReturn) (canMap : RVal → Bool)
    (s : RoundState) (hv : RoundInv replies canMap s) (r : RedisReturn)
    (hret : s.retVal = some r) :
    ∀ i, i < replies.length → s.outer.get? i = some .finished := by
  intro i hi
  have hwg := (hv.retOk r hret).1
  have hc := hv.wgCount
  rw [hwg, Nat.zero_add] at hc
  obtain ⟨pc, hpc⟩ := lgetOfLt s.outer i (by rw [hv.outerLen]; exact hi)
  have := doneCount_full s.outer (by rw [hc, hv.outerLen]) i pc hpc
  rw [this] at hpc
  exact hpc

/-- When the predicate accepts every pool's reply, a worker whose outer
body returned can only have been the one that consumed the single `stop`
message: its inner goroutine never reaches `cmdDone`. -/
theorem round_stop_only (replies : List RedisReturn) (canMap : RVal → Bool)
    (s : RoundState) (hv : RoundInv replies canMap s)
    (hAll : ∀ i r, replies.get? i = some r → canMap r.val = true) :
    ∀ i, s.outer.get? i = some .finished → s.stopReceiver = some i := by
  intro i hfin
  rcases hv.outerProv i hfin with hc | hc
  · have hi : i < replies.length := by
      rw [← hv.innerLen]
      exact lgetLtLength _ i _ hc
    obtain ⟨rr, hrr⟩ := lgetOfLt replies i hi
    have hT := hAll i rr hrr
    have hF := hv.rejectPC i (Or.inr hc) rr hrr
    rw [hT] at hF
    cases hF
  · exact hc

/-- When the predicate accepts every pool's reply of a round with at
least two pools, `do` can never return: `wg.Wait()` would need every
worker's outer body to return, but at most one (the `stop` consumer)
ever can. -/
theorem round_allAccept_noReturn (replies : List RedisReturn)
    (canMap : RVal → Bool) (s : RoundState) (hv : RoundInv replies canMap s)
    (hAll : ∀ i r, replies.get? i = some r → canMap r.val = true)
    (h2 : 2 ≤ replies.length) : s.retVal = none := by
  cases hret : s.retVal with
  | none => rfl
  | some r =>
    have h0 := round_all_finished replies canMap s hv r hret 0 (by omega)
    have h1 := round_all_finished replies canMap s hv r hret 1 (by omega)
    have hs0 := round_stop_only replies canMap s hv hAll 0 h0
    have hs1 := round_stop_only replies canMap s hv hAll 1 h1
    rw [hs0] at hs1
    cases Option.some.inj hs1

/-- When the predicate accepts every pool's reply, at most one deferred
`conn.Close()` ever runs in the round. -/
theorem round_allAccept_releases (replies : List RedisReturn)
    (canMap : RVal → Bool) (s : RoundState) (hv : RoundInv replies canMap s)
    (hAll : ∀ i r, replies.get? i = some r → canMap r.val = true) :
    s.releases.length ≤ 1 := by
  cases hrel : s.releases with
  | nil => simp
  | cons a t =>
    cases ht : t with
    | nil => simp
    | cons b t2 =>
      subst ht
      have hma : a ∈ s.releases := by rw [hrel]; exact List.mem_cons_self a _
      have hmb : b ∈ s.releases := by
        rw [hrel]
        exact List.mem_cons_of_mem a (List.mem_cons_self b _)
      have hfa := (hv.relDone a).mp hma
      have hfb := (hv.relDone b).mp hmb
      have hsa := round_stop_only replies canMap s hv hAll a hfa
      have hsb := round_stop_only replies canMap s hv hAll b hfb
      rw [hsa] at hsb
      have hab : a = b := Option.some.inj hsb
      have hnd := hv.relNodup
      rw [hrel, List.nodup_cons] at hnd
      exact absurd (hab ▸ List.mem_cons_self b t2) hnd.1

/-- When no pool's reply is accepted, the collector goroutine stays
blocked on `<-results` for the whole round: no label can move it. -/
theorem roundStep_recvRes (replies : List RedisReturn) (canMap : RVal → Bool)
    (s s' : RoundState) (l : Label)
    (hs : roundStep replies canMap s l = some s')
    (hv : RoundInv replies canMap s)
    (hNo : ∀ i r, replies.get? i = some r → canMap r.val = false)
    (hc : s.coll = .recvRes) : s'.coll = .recvRes := by
  cases l with
  | acquire i =>
    simp only [roundStep] at hs
    split at hs
    next => cases hs; exact hc
    next => exact Option.noConfusion hs
  | eval i =>
    simp only [roundStep] at hs
    split at hs
    next r hrun hrep =>
      split at hs <;> (cases hs; exact hc)
    next => exact Option.noConfusion hs
  | pubRes i =>
    simp only [roundStep] at hs
    split at hs
    next r hsr hcoll hrep =>
      have hw : i ∈ s.writes := (hv.writesInner i).mpr (Or.inl hsr)
      have hT := hv.writesAccept i r hw hrep
      have hF := hNo i r hrep
      rw [hT] at hF
      cases hF
    next => exact Option.noConfusion hs
  | recvStop i =>
    simp only [roundStep] at hs
    split at hs
    next hcoll hsel =>
      rw [hc] at hcoll
      cases hcoll
    next => exact Option.noConfusion hs
  | doneSig i =>
    simp only [roundStep] at hs
    split at hs
    next => cases hs; exact hc
    next => exact Option.noConfusion hs
  | ret =>
    simp only [roundStep] at hs
    split at hs
    next => cases hs; exact hc
    next => exact Option.noConfusion hs

/-- Under a never-accepting predicate the collector is still on
`<-results` after any schedule. -/
theorem runFrom_recvRes (replies : List RedisReturn) (canMap : RVal → Bool)
    (hNo : ∀ i r, replies.get? i = some r → canMap r.val = false) :
    ∀ (ls : List Label) (s : RoundState), RoundInv replies canMap s →
    s.coll = .recvRes → (runFrom replies canMap s ls).coll = .recvRes
  | [], _, _, hc => hc
  | l :: ls, s, hv, hc => by
    rw [runFrom]
    cases hstep : roundStep replies canMap s l with
    | some t =>
      exact runFrom_recvRes replies canMap hNo ls t
        (roundInv_step replies canMap s t l hstep hv)
        (roundStep_recvRes replies canMap s t l hstep hv hNo hc)
    | none => exact runFrom_recvRes replies canMap hNo ls s hv hc

/-! ## Auxiliary lemmas for BGSave and NewProxyConn -/

theorem invokedShards_closes : ∀ defs : List Nat,
    invokedShards (defs.map BgEvent.close) = []
  | [] => rfl
  | _ :: t => invokedShards_closes t

theorem invokedShards_cons_get (i : Nat) (log : List BgEvent) :
    invokedShards (BgEvent.get i :: log) = invokedShards log := rfl

theorem bgSaveGo_spec : ∀ (pools : List (RVal × Option String))
    (idx cnt : Nat) (defs : List Nat),
    (bgSaveGo pools idx cnt defs).1 =
      (match firstErr pools with
        | none => (cnt + pools.length, none)
        | some (k, e) => (cnt + k, some e))
    ∧ invokedShards (bgSaveGo pools idx cnt defs).2 =
      List.range' idx
        (match firstErr pools with
          | none => pools.length
          | some (k, _) => k + 1)
  | [], idx, cnt, defs => by
    constructor
    · simp [bgSaveGo, firstErr]
    · simp [bgSaveGo, firstErr, invokedShards_closes]
  | (v, some msg) :: rest, idx, cnt, defs => by
    constructor
    · simp [bgSaveGo, firstErr]
    · simp only [bgSaveGo, firstErr]
      rw [invokedShards_cons_get]
      show invokedShards (BgEvent.invoke idx "BGSAVE" :: _) = _
      simp only [invokedShards, List.filterMap_cons]
      rw [show List.filterMap _ ((idx :: defs).map BgEvent.close) =
        invokedShards ((idx :: defs).map BgEvent.close) from rfl]
      rw [invokedShards_closes]
      rfl
  | (v, none) :: rest, idx, cnt, defs => by
    have ih := bgSaveGo_spec rest (idx + 1) (cnt + 1) (idx :: defs)
    constructor
    · simp only [bgSaveGo, firstErr]
      rw [ih.1]
      cases hfe : firstErr rest with
      | none => simp [List.length_cons]; omega
      | some p =>
        cases p with
        | mk k e => simp; omega
    · simp only [bgSaveGo, firstErr]
      rw [invokedShards_cons_get]
      show invokedShards (BgEvent.invoke idx "BGSAVE" :: BgEvent.sleep :: _) = _
      simp only [invokedShards, List.filterMap_cons]
      rw [show List.filterMap _ (bgSaveGo rest (idx+1) (cnt+1) (idx :: defs)).2 =
        invokedShards (bgSaveGo rest (idx+1) (cnt+1) (idx :: defs)).2 from rfl]
      rw [ih.2]
      cases hfe : firstErr rest with
      | none =>
        simp only [Option.map_none', List.length_cons]
        rw [List.range'_succ idx rest.length 1]
      | some p =>
        cases p with
        | mk k e =>
          simp only [Option.map_some']
          rw [List.range'_succ idx (k + 1) 1]

theorem fillPools_spec : ∀ (servers : List String) (auth : String)
    (create : String → String → Nat),
    (fillPools servers auth create).1 = servers.map (fun d => create d auth)
    ∧ (fillPools servers auth create).2 = servers.map (fun d => (d, auth))
  | [], _, _ => ⟨rfl, rfl⟩
  | d :: t, auth, create => by
    have ih := fillPools_spec t auth create
    constructor
    · simp only [fillPools, List.map_cons]
      rw [← ih.1]
    · simp only [fillPools, List.map_cons]
      rw [← ih.2]

/-! ## The claims -/

/-- Claim C7: BGSave bypasses discovery entirely: it issues its command
to every pool sequentially in pool order (with the inter-pool sleep and
no predicate) and returns the count of pools successfully triggered —
`len(Pools)` with nil error when every invocation succeeds, and on the
first invocation error the count of pools already triggered together
with that error, issuing no command to later pools. -/
theorem claimC7_bgsave (pools : List (RVal × Option String)) :
    (bgSave pools).1 =
      (match firstErr pools with
        | none => (pools.length, none)
        | some (k, e) => (k, some e))
    ∧ invokedShards (bgSave pools).2 =
      List.range
        (match firstErr pools with
          | none => pools.length
          | some (k, _) => k + 1) := by
  have h := bgSaveGo_spec pools 0 0 []
  constructor
  · rw [bgSave, h.1]
    cases hfe : firstErr pools with
    | none => simp
    | some p => cases p with | mk k e => simp
  · rw [bgSave, h.2]
    cases hfe : firstErr pools with
    | none => rw [List.range_eq_range']
    | some p => cases p with | mk k e => rw [List.range_eq_range']

/-- Claim C8: for every command, the wire-ready argument list handed to
the connection's `Do` call is `[key] ++ arguments`: the key is the first
positional argument after the command name and the caller's arguments
follow in their original order. `getArgs` builds a fresh slice, so the
command itself is left untouched (in this embedding `RedisCmd` is a pure
value and immutability is inherent). -/
theorem claimC8_getArgs (c : RedisCmd) :
    c.getArgs = [RVal.str c.key] ++ c.args
    ∧ c.getArgs.head? = some (RVal.str c.key)
    ∧ c.getArgs.drop 1 = c.args :=
  ⟨rfl, rfl, rfl⟩

/-- Claim C10: for every configuration that reads and parses
successfully, `NewProxyConn` with a pool name absent from the file
returns a non-nil ProxyConn with an empty pool slice and a nil error
(construction does not abort on an unknown pool name), and in general
the factory is invoked exactly once per server listed under the named
pool, in listed order. -/
theorem claimC10_newProxyConn (m : List (String × RedisPoolConfig))
    (poolName : String) (kc : Nat) (create : String → String → Nat)
    (habsent : lookupConf m poolName = none) :
    (newProxyConn (.ok m) poolName kc create).1 = .ok ⟨[], []⟩
    ∧ (newProxyConn (.ok m) poolName kc create).2 = []
    ∧ ∀ (m2 : List (String × RedisPoolConfig)) (n2 : String),
        (newProxyConn (.ok m2) n2 kc create).2 =
          (confOf m2 n2).servers.map (fun d => (d, (confOf m2 n2).auth)) := by
  refine ⟨?_, ?_, ?_⟩
  · simp only [newProxyConn, confOf, habsent, Option.getD_none, fillPools]
  · simp only [newProxyConn, confOf, habsent, Option.getD_none, fillPools]
  · intro m2 n2
    simp only [newProxyConn]
    exact (fillPools_spec (confOf m2 n2).servers (confOf m2 n2).auth create).2

/-- Witness for C10 at a concrete configuration: one named pool
"alpha", constructed under the absent name "beta". -/
theorem claimC10_witness :
    (newProxyConn (.ok [("alpha", ⟨["s1", "s2"], "pw"⟩)]) "beta" 4
        (fun _ _ => 7)).1 = .ok ⟨[], []⟩
    ∧ (newProxyConn (.ok [("alpha", ⟨["s1", "s2"], "pw"⟩)]) "beta" 4
        (fun _ _ => 7)).2 = []
    ∧ ∀ (m2 : List (String × RedisPoolConfig)) (n2 : String),
        (newProxyConn (.ok m2) n2 4 (fun _ _ => 7)).2 =
          (confOf m2 n2).servers.map (fun d => (d, (confOf m2 n2).auth)) :=
  claimC10_newProxyConn [("alpha", ⟨["s1", "s2"], "pw"⟩)] "beta" 4
    (fun _ _ => 7) rfl

/-- Claim C2: for every key that already has a KeyInstance entry, `do`
takes the fast path: it acquires one connection from the mapped pool
only, issues exactly one invocation (`cmd.name` with `cmd.getArgs`)
against that pool, releases the connection (the deferred close) on the
single exit path, returns that pool's value/error pair verbatim, and
every connection event of the call touches the mapped pool alone. -/
theorem claimC2_fast_path (replies : List RedisReturn)
    (ki : List (String × Nat)) (cmd : RedisCmd) (canMap : RVal → Bool)
    (sched : List Label) (m : Nat) (b : RedisReturn)
    (hki : lookupKI ki cmd.key = some m) (hb : replies.get? m = some b) :
    doDispatch replies ki cmd canMap sched =
      .fast b [ConnEvent.get m, ConnEvent.invoke m cmd.name cmd.getArgs,
        ConnEvent.close m]
    ∧ ∀ e ∈ [ConnEvent.get m, ConnEvent.invoke m cmd.name cmd.getArgs,
        ConnEvent.close m], e.shard = m := by
  constructor
  · simp only [doDispatch, hki, doFast, hb, Option.getD_some]
  · intro e he
    simp only [List.mem_cons, List.not_mem_nil, or_false] at he
    rcases he with h | h | h <;> (subst h; rfl)

/-- Witness for C2: a one-pool proxy with "k" already mapped to pool 0
returning the string "v". -/
theorem claimC2_witness :
    doDispatch [⟨RVal.str "v", none⟩] [("k", 0)] ⟨"GET", "k", []⟩
        acceptAll [] =
      .fast ⟨RVal.str "v", none⟩ [ConnEvent.get 0,
        ConnEvent.invoke 0 "GET" [RVal.str "k"], ConnEvent.close 0]
    ∧ ∀ e ∈ [ConnEvent.get 0, ConnEvent.invoke 0 "GET" [RVal.str "k"],
        ConnEvent.close 0], e.shard = 0 :=
  claimC2_fast_path [⟨RVal.str "v", none⟩] [("k", 0)] ⟨"GET", "k", []⟩
    acceptAll [] 0 ⟨RVal.str "v", none⟩ rfl rfl

/-- Claim C3: in a discovery round in which no pool's reply satisfies
the predicate, whenever `do` returns it returns the nil value paired
with the no-mapping error, no KeyInstance write has happened, and every
worker's inner goroutine has fully finished (its `conn.Do` returned and
its `cmdDone` handshake completed) — the dispatcher never returns
early, under any schedule. -/
theorem claimC3_no_accept (replies : List RedisReturn)
    (canMap : RVal → Bool) (sched : List Label) (r : RedisReturn)
    (hNo : ∀ i rr, replies.get? i = some rr → canMap rr.val = false)
    (hret : (runRound replies canMap sched).retVal = some r) :
    r = noMappingReturn
    ∧ (runRound replies canMap sched).writes = []
    ∧ ∀ i, i < replies.length →
        (runRound replies canMap sched).inner.get? i = some .finished := by
  have hv := roundInv_runRound replies canMap sched
  refine ⟨?_, ?_, ?_⟩
  · rcases (hv.retOk r hret).2 with hc | ⟨j, rr, h1, h2, _⟩
    · exact hc
    · rw [hNo j rr h1] at h2
      cases h2
  · rw [List.eq_nil_iff_forall_not_mem]
    intro j hj
    have hpc := (hv.writesInner j).mp hj
    have hjl : j < replies.length := by
      rw [← hv.innerLen]
      rcases hpc with hc | hc <;> exact lgetLtLength _ j _ hc
    obtain ⟨rr, hrr⟩ := lgetOfLt replies j hjl
    have hT := hv.writesAccept j rr hj hrr
    rw [hNo j rr hrr] at hT
    cases hT
  · intro i hi
    have hfin := round_all_finished replies canMap _ hv r hret i hi
    rcases hv.outerProv i hfin with hc | hc
    · exact hc
    · have hcoll : (runRound replies canMap sched).coll = .recvRes :=
        runFrom_recvRes replies canMap hNo sched (roundStart replies.length)
          (roundInv_start replies canMap) rfl
      have hstop := hv.stopColl.mpr (by rw [hcoll]; simp)
      rw [hstop] at hc
      cases hc
/-- Witness for C3: a one-pool round with a nil reply, a never-accepting
predicate and a complete schedule. -/
theorem claimC3_witness :
    noMappingReturn = noMappingReturn
    ∧ (runRound [nilReply] rejectAll schedNoAccept1).writes = []
    ∧ ∀ i, i < (List.length [nilReply]) →
        (runRound [nilReply] rejectAll schedNoAccept1).inner.get? i =
          some .finished :=
  claimC3_no_accept [nilReply] rejectAll schedNoAccept1 noMappingReturn
    (fun _ _ _ => rfl) rfl

/-- Claim C5: a connection-acquisition failure is not representable in
the source (`ConnGetter.Get` returns a connection and no error), and an
invocation error does not abort the round: the predicate is applied to
the value alone, so an erroring pool is non-accepting unless its reply
value is accepted, and whenever the round returns, the returned
value/error pair is either the no-mapping result or exactly the pair of
a pool whose value the predicate accepted (an invocation error reaches
the caller only alongside a winner's accepted value); moreover in every
returning round each worker's outer body finished and released its
connection exactly once. -/
theorem claimC5_worker_errors (replies : List RedisReturn)
    (canMap : RVal → Bool) (sched : List Label) (r : RedisReturn)
    (hret : (runRound replies canMap sched).retVal = some r) :
    (r = noMappingReturn ∨ ∃ j rr, replies.get? j = some rr ∧
      canMap rr.val = true ∧ r = rr)
    ∧ (∀ i, i < replies.length →
        i ∈ (runRound replies canMap sched).releases)
    ∧ (runRound replies canMap sched).releases.Nodup
    ∧ ∀ i, i < replies.length →
        (runRound replies canMap sched).outer.get? i = some .finished := by
  have hv := roundInv_runRound replies canMap sched
  refine ⟨(hv.retOk r hret).2, ?_, hv.relNodup, ?_⟩
  · intro i hi
    exact (hv.relDone i).mpr
      (round_all_finished replies canMap _ hv r hret i hi)
  · exact round_all_finished replies canMap _ hv r hret

/-- Witness for C5: a two-pool round where pool 0 errors (and is
rejected) while pool 1 wins with a slice reply; the round returns the
winner's pair and both connections are released. -/
theorem claimC5_witness :
    ((⟨RVal.arr [RVal.bytes "key", RVal.bytes "payload"], none⟩ : RedisReturn) =
        noMappingReturn
      ∨ ∃ j rr, oneWinnerReplies.get? j = some rr ∧
          blPopCanMap rr.val = true ∧
          (⟨RVal.arr [RVal.bytes "key", RVal.bytes "payload"], none⟩ :
            RedisReturn) = rr)
    ∧ (∀ i, i < oneWinnerReplies.length →
        i ∈ (runRound oneWinnerReplies blPopCanMap schedOneWinner).releases)
    ∧ (runRound oneWinnerReplies blPopCanMap schedOneWinner).releases.Nodup
    ∧ ∀ i, i < oneWinnerReplies.length →
        (runRound oneWinnerReplies blPopCanMap schedOneWinner).outer.get? i =
          some .finished :=
  claimC5_worker_errors oneWinnerReplies blPopCanMap schedOneWinner
    ⟨RVal.arr [RVal.bytes "key", RVal.bytes "payload"], none⟩ rfl

/-- Claim C1 (the code violates it): with an adversarial predicate that
accepts every value, a two-pool discovery round does NOT behave as the
spec demands. Under every schedule `do` never returns (the single
`stop` message can release at most one worker's select, an accepting
worker's inner goroutine never sends `cmdDone`, so `wg.Wait()` never
completes), and in the exhibited schedule the KeyInstance entry for the
key is written twice — once per accepting worker, the Go runtime may
even abort on the concurrent map write — while the second accepter
blocks forever publishing into the `results` channel nobody reads and
only one of the two connections is ever released. -/
theorem claimC1_adversarial_predicate :
    (∀ sched : List Label,
      (runRound [nilReply, nilReply] acceptAll sched).retVal = none)
    ∧ (runRound [nilReply, nilReply] acceptAll schedTwoAccept).writes = [0, 1]
    ∧ (runRound [nilReply, nilReply] acceptAll schedTwoAccept).inner =
        [.spinning, .sendRes]
    ∧ (runRound [nilReply, nilReply] acceptAll schedTwoAccept).releases = [1] := by
  refine ⟨?_, rfl, rfl, rfl⟩
  intro sched
  exact round_allAccept_noReturn [nilReply, nilReply] acceptAll _
    (roundInv_runRound [nilReply, nilReply] acceptAll sched)
    (fun _ _ _ => rfl) (by simp)

/-- Claim C4 (the code violates it): in a three-pool discovery round
with an all-accepting predicate, all three connections are acquired
(the exhibited schedule runs the three `pool.Get()` calls), but under
every schedule at most one deferred `conn.Close()` ever runs — two of
the three acquired connections are never released — and the dispatcher
never returns. In rounds that do return (no over-acceptance), every
worker finishes and releases exactly once, but the claim's "regardless
of ... multiple acceptances" fails on the code. -/
theorem claimC4_connection_leak :
    (runRound [nilReply, nilReply, nilReply] acceptAll schedAcq3).acquires =
      [0, 1, 2]
    ∧ (∀ sched : List Label,
        (runRound [nilReply, nilReply, nilReply] acceptAll
          sched).releases.length ≤ 1)
    ∧ (∀ sched : List Label,
        (runRound [nilReply, nilReply, nilReply] acceptAll sched).retVal =
          none) := by
  refine ⟨rfl, ?_, ?_⟩
  · intro sched
    exact round_allAccept_releases [nilReply, nilReply, nilReply] acceptAll _
      (roundInv_runRound [nilReply, nilReply, nilReply] acceptAll sched)
      (fun _ _ _ => rfl)
  · intro sched
    exact round_allAccept_noReturn [nilReply, nilReply, nilReply] acceptAll _
      (roundInv_runRound [nilReply, nilReply, nilReply] acceptAll sched)
      (fun _ _ _ => rfl) (by simp)

/-- Claim C6 as stated is false on the code: in a complete one-pool
round whose nil reply the BLPop predicate rejects, `Do` returns the
no-mapping routing error, and BLPop's error check returns that routing
error verbatim — not the domain-level "BLPOP timed out." error. -/
theorem claimC6_counterexample :
    (runRound [nilReply] blPopCanMap schedNoAccept1).retVal =
      some noMappingReturn
    ∧ blPopPost noMappingReturn.val noMappingReturn.err =
        some ("", some noMappingMsg)
    ∧ noMappingMsg ≠ "BLPOP timed out." := by
  refine ⟨rfl, rfl, ?_⟩
  decide

/-- Claim C6, amended: BLPop's predicate accepts exactly the slice
replies (so a nil timeout reply is rejected); when no pool's reply is
accepted, the dispatcher's no-mapping routing error is surfaced to the
caller verbatim; the "BLPOP timed out." error is reported only when
dispatch returns no error together with a non-slice value (the
already-mapped key that times out). -/
theorem claimC6_blpop (replies : List RedisReturn) (sched : List Label)
    (r : RedisReturn)
    (hNo : ∀ i rr, replies.get? i = some rr → blPopCanMap rr.val = false)
    (hret : (runRound replies blPopCanMap sched).retVal = some r) :
    blPopPost r.val r.err = some ("", some noMappingMsg)
    ∧ (∀ v : RVal, blPopCanMap v = true ↔ ∃ l, v = RVal.arr l)
    ∧ (∀ v : RVal, (∀ l, v ≠ RVal.arr l) →
        blPopPost v none = some ("", some "BLPOP timed out.")) := by
  have hv := roundInv_runRound replies blPopCanMap sched
  refine ⟨?_, ?_, ?_⟩
  · have hr : r = noMappingReturn := by
      rcases (hv.retOk r hret).2 with hc | ⟨j, rr, h1, h2, _⟩
      · exact hc
      · rw [hNo j rr h1] at h2
        cases h2
    rw [hr]
    rfl
  · intro v
    constructor
    · intro hT
      match v, hT with
      | .arr l, _ => exact ⟨l, rfl⟩
    · rintro ⟨l, rfl⟩
      rfl
  · intro v hnv
    match v, hnv with
    | .nil, _ => rfl
    | .boolV b, _ => rfl
    | .str s, _ => rfl
    | .bytes s, _ => rfl
    | .durSec n, _ => rfl
    | .arr l, hnv => exact absurd rfl (hnv l)

/-- Witness for C6 at the concrete no-accept round of the
counterexample. -/
theorem claimC6_witness :
    blPopPost noMappingReturn.val noMappingReturn.err =
      some ("", some noMappingMsg)
    ∧ (∀ v : RVal, blPopCanMap v = true ↔ ∃ l, v = RVal.arr l)
    ∧ (∀ v : RVal, (∀ l, v ≠ RVal.arr l) →
        blPopPost v none = some ("", some "BLPOP timed out.")) :=
  claimC6_blpop [nilReply] schedNoAccept1 noMappingReturn
    (fun i rr h => by
      match i, h with
      | 0, h =>
        rw [show rr = nilReply from (Option.some.inj h).symm]
        rfl
      | i + 1, h => exact absurd h (by simp [nilReply]))
    rfl

/-- Claim C9 as stated is false on the code: the value
`[]interface{}{nil, []byte("x")}` is not a non-empty slice of byte
slices (its first element is nil), dispatch can yield it (here on the
fast path for a mapped key), and yet the unguarded
`string(v.([]interface{})[1].([]byte))` of the twunproxy.go BLPop
succeeds and returns "x" without panicking. -/
theorem claimC9_counterexample :
    isNonEmptyByteSliceArr mixedPair = false
    ∧ doDispatch [⟨mixedPair, none⟩] [("k", 0)] (blPopCmd "k" 5000000000)
        blPopTwunCanMap [] =
      .fast ⟨mixedPair, none⟩ [ConnEvent.get 0,
        ConnEvent.invoke 0 "BLPOP" [RVal.str "k", RVal.durSec 5000000000],
        ConnEvent.close 0]
    ∧ blPopTwunPost mixedPair none = some ("x", none) :=
  ⟨rfl, rfl, rfl⟩

/-- Claim C9, amended: the twunproxy.go BLPop's unguarded
`string(v.([]interface{})[1].([]byte))` panics exactly when the
dispatched value is not a slice holding a byte slice at index 1 — in
particular it panics on the nil value paired with the no-mapping error
that a fully rejected discovery round produces (the error is dropped,
never returned), as the exhibited complete round shows. -/
theorem claimC9_blpop_panics :
    (∀ (v : RVal) (e : Option String), blPopTwunPost v e = none ↔
      ¬ ∃ l b, v = RVal.arr l ∧ l.get? 1 = some (RVal.bytes b))
    ∧ blPopTwunPost RVal.nil (some noMappingMsg) = none
    ∧ (runRound [nilReply] blPopTwunCanMap schedNoAccept1).retVal =
        some noMappingReturn := by
  refine ⟨?_, rfl, rfl⟩
  intro v e
  constructor
  · rintro hnone ⟨l, b, rfl, hl⟩
    simp only [blPopTwunPost, hl] at hnone
    cases hnone
  · intro hno
    match v with
    | .nil => rfl
    | .boolV b => rfl
    | .str s => rfl
    | .bytes s => rfl
    | .durSec n => rfl
    | .arr l =>
      cases hl : l.get? 1 with
      | none => simp only [blPopTwunPost, hl]
      | some x =>
        match x, hl with
        | .bytes b, hl => exact absurd ⟨l, b, rfl, hl⟩ hno
        | .nil, hl => simp only [blPopTwunPost, hl]
        | .boolV b, hl => simp only [blPopTwunPost, hl]
        | .str s, hl => simp only [blPopTwunPost, hl]
        | .durSec n, hl => simp only [blPopTwunPost, hl]
        | .arr l2, hl => simp only [blPopTwunPost, hl]
